import Mathlib

/- Verification development for tree.py, a directory-tree printer.

   The development shallowly embeds the three components of the program:
   the Item model (classes Item, File, Link, Directory), the walker
   (class Tree: validate_root, break_condition, skip_condition,
   process_item, traverse_tree) and the renderer (class GraphTree: draw),
   together with the glob matching used by skip_condition
   (glob.fnmatch.fnmatch). -/

/-- A snapshot of the part of the filesystem one traversal can observe.
  * `file`    : an entry for which `Path.is_dir()` and `Path.is_symlink()`
                are both false (regular file, fifo, socket, ...);
  * `link`    : a symlink whose target is not an existing directory, so
                `Path.is_dir()` is false and `Path.is_symlink()` is true;
                `target` is the raw string `os.readlink` returns;
  * `dirlink` : a symlink whose target is an existing directory:
                `Path.is_dir()` follows symlinks and is true, and iterating
                the path yields the target directory's entries;
  * `dir`     : a real directory with its immediate entries. -/
inductive FSEntry where
  | file (name : String)
  | link (name : String) (target : String)
  | dirlink (name : String) (target : String) (entries : List FSEntry)
  | dir (name : String) (entries : List FSEntry)

/-- Python `Path.name`: the final path component of the entry. -/
def FSEntry.name : FSEntry → String
  | .file n => n
  | .link n _ => n
  | .dirlink n _ _ => n
  | .dir n _ => n

/-- Python `Path.is_dir()`: follows symlinks, so it is true for `dirlink`. -/
def FSEntry.is_dir : FSEntry → Bool
  | .dirlink _ _ _ => true
  | .dir _ _ => true
  | _ => false

/-- Python `Path.is_symlink()`. -/
def FSEntry.is_symlink : FSEntry → Bool
  | .link _ _ => true
  | .dirlink _ _ _ => true
  | _ => false

/-- Python `os.readlink(path)`: the raw target string stored in a symlink. -/
def FSEntry.target : FSEntry → String
  | .link _ t => t
  | .dirlink _ t _ => t
  | _ => ""

/-- Python `path.iterdir()`: the entries listed when the path is iterated
(for `dirlink` these are the entries of the target directory). -/
def FSEntry.entries : FSEntry → List FSEntry
  | .dirlink _ _ es => es
  | .dir _ es => es
  | _ => []

/-- The Item model of tree.py as a tagged variant: classes File, Link
(with its raw `target`) and Directory (with its ordered `children`).
The `path` attribute is not represented: no claim consults it. -/
inductive Item where
  | file (name : String)
  | link (name : String) (target : String)
  | directory (name : String) (children : List Item)

/-- Attribute `Item.name`. -/
def Item.name : Item → String
  | .file n => n
  | .link n _ => n
  | .directory n _ => n

/-- Method `Item.is_file()`. -/
def Item.is_file : Item → Bool
  | .file _ => true
  | _ => false

/-- Method `Item.is_link()`. -/
def Item.is_link : Item → Bool
  | .link _ _ => true
  | _ => false

/-- Method `Item.is_directory()`. -/
def Item.is_directory : Item → Bool
  | .directory _ _ => true
  | _ => false

/-- Attribute `Link.target` (meaningful only for links). -/
def Item.target : Item → String
  | .link _ t => t
  | _ => ""

/-- Attribute `Directory.children` (File and Link own no children). -/
def Item.children : Item → List Item
  | .directory _ cs => cs
  | _ => []

/- ### glob.fnmatch.fnmatch

tree.py matches exclusion patterns with `glob.fnmatch.fnmatch(name, pattern)`.
On POSIX that is a whole-string shell-glob match with `*`, `?` and `[...]`
character classes; a `[` with no closing `]` is kept as a literal character
(fnmatch.translate emits a literal bracket in that case). -/

/-- Scan to the closing `]` of a character class, returning the class content
and the remaining pattern, or none when no `]` follows (which makes the
opening `[` literal). -/
def scanClose : List Char → Option (List Char × List Char)
  | [] => none
  | c :: rest =>
    if c = ']' then some ([], rest)
    else (scanClose rest).map (fun p => (c :: p.1, p.2))

/-- Parse a bracket class directly after `[`: an optional leading `!`
(negation), then a `]` first character counts as content, then content up to
the closing `]` (mirrors the scan in fnmatch.translate). -/
def splitBracket (l : List Char) : Option (Bool × List Char × List Char) :=
  match l with
  | '!' :: l1 =>
    (match l1 with
     | ']' :: l2 => (scanClose l2).map (fun p => (true, ']' :: p.1, p.2))
     | _ => (scanClose l1).map (fun p => (true, p.1, p.2)))
  | ']' :: l2 => (scanClose l2).map (fun p => (false, ']' :: p.1, p.2))
  | _ => (scanClose l).map (fun p => (false, p.1, p.2))

/-- Membership of a character in a bracket class content: `a-b` ranges by
code point, `-` at the edges literal. -/
def memBracket (c : Char) : List Char → Bool
  | [] => false
  | a :: '-' :: b :: rest => (a ≤ c && c ≤ b) || memBracket c rest
  | a :: rest => (c == a) || memBracket c rest

/-- The glob matcher over character lists: pattern against whole string. -/
def globMatch : List Char → List Char → Bool
  | [], s => s.isEmpty
  | '*' :: ps, s =>
    globMatch ps s ||
      (match s with
       | [] => false
       | _ :: s2 => globMatch ('*' :: ps) s2)
  | '?' :: ps, s =>
    (match s with
     | [] => false
     | _ :: s2 => globMatch ps s2)
  | '[' :: ps, s =>
    (match splitBracket ps with
     | some (neg, content, rest) =>
       (match s with
        | [] => false
        | c :: s2 => (memBracket c content != neg) && globMatch rest s2)
     | none =>
       (match s with
        | [] => false
        | c :: s2 => (c == '[') && globMatch ps s2))
  | p :: ps, s =>
    (match s with
     | [] => false
     | c :: s2 => (c == p) && globMatch ps s2)
termination_by ps s => (s.length, ps.length)
decreasing_by
  all_goals simp_wf
  all_goals first
    | (apply Prod.Lex.right; omega)
    | (apply Prod.Lex.left; omega)

/-- Python `glob.fnmatch.fnmatch(name, pat)` on POSIX (normcase is the identity). -/
def fnmatch (name pat : String) : Bool :=
  globMatch pat.toList name.toList

/- ### The walker (class Tree) -/

/-- The configuration attributes of class Tree (`max_depth`, `exclude`);
`root` is handled separately through `validate_root`. -/
structure TreeCfg where
  max_depth : Option Nat
  exclude : List String
deriving DecidableEq

/-- Method `Tree.break_condition`: true when traversal may go on below
`current_depth` (no bound, or `current_depth < max_depth`). -/
def break_condition (t : TreeCfg) (current_depth : Nat) : Bool :=
  match t.max_depth with
  | none => true
  | some m => current_depth < m

/-- Method `Tree.skip_condition`: the entry's base name (`item.name`) matched
against each exclusion pattern in turn. -/
def skip_condition (t : TreeCfg) (item : FSEntry) : Bool :=
  t.exclude.any (fun pat => fnmatch item.name pat)

/-- Python `sorted(root.path.iterdir())`: Python sorts the sibling paths by their
path string, which (all siblings sharing the parent prefix) is code-point
comparison of the entry names; `sorted` is a stable ascending sort, realised
here as insertion sort on the names. -/
def sortEntries (l : List FSEntry) : List FSEntry :=
  List.insertionSort (fun a b => a.name ≤ b.name) l

theorem sizeOf_orderedInsert {α} [SizeOf α] (r : α → α → Prop) [DecidableRel r]
    (a : α) (l : List α) :
    sizeOf (List.orderedInsert r a l) = sizeOf (a :: l) := by
  induction l with
  | nil => rfl
  | cons x xs ih =>
    by_cases h : r a x <;> simp [List.orderedInsert, h, List.cons.sizeOf_spec, ih] <;> omega

theorem sizeOf_insertionSort {α} [SizeOf α] (r : α → α → Prop) [DecidableRel r]
    (l : List α) : sizeOf (List.insertionSort r l) = sizeOf l := by
  induction l with
  | nil => rfl
  | cons x xs ih =>
    simp [List.insertionSort, sizeOf_orderedInsert, List.cons.sizeOf_spec, ih]

theorem sizeOf_sortEntries (l : List FSEntry) : sizeOf (sortEntries l) = sizeOf l :=
  sizeOf_insertionSort _ l

mutual
/-- Method `Tree.process_item`: excluded entries return no item; then the entry is
classified with `is_dir()` first (which follows symlinks), `is_symlink()`
second; a directory recurses only while `break_condition` holds. -/
def process_item (t : TreeCfg) (item : FSEntry) (current_depth : Nat) : Option Item :=
  if skip_condition t item then none
  else if h : item.is_dir then
    some (Item.directory item.name
      (if break_condition t current_depth then
        traverse_tree t item.entries (current_depth + 1)
      else []))
  else if item.is_symlink then
    some (Item.link item.name item.target)
  else
    some (Item.file item.name)
termination_by (sizeOf item, 1)
decreasing_by
  cases item <;> simp_all [FSEntry.is_dir, FSEntry.entries] <;> omega

/-- The loop of `Tree.traverse_tree` over the already-sorted entries:
append each processed item that is not None. -/
def traverse_go (t : TreeCfg) (entries : List FSEntry) (current_depth : Nat) : List Item :=
  match entries with
  | [] => []
  | e :: rest =>
    match process_item t e current_depth with
    | some it => it :: traverse_go t rest current_depth
    | none => traverse_go t rest current_depth
termination_by (sizeOf entries, 0)

/-- Method `Tree.traverse_tree`: iterate the sorted entries of the directory being
expanded, appending the processed items to its children. -/
def traverse_tree (t : TreeCfg) (entries : List FSEntry) (current_depth : Nat) : List Item :=
  traverse_go t (sortEntries entries) current_depth
termination_by (sizeOf entries, 2)
decreasing_by
  rw [sizeOf_sortEntries]
  exact Prod.Lex.right _ (by omega)
end

/- ### The renderer (class GraphTree) -/

/-- TreeElements.FILE, the connector printed for a child with later
siblings (draw line 142, the else branch). -/
def TreeElements_FILE : String := "├──"

/-- TreeElements.LINK, the arrow between a link's name and target. -/
def TreeElements_LINK : String := "->"

/-- TreeElements.DIRECTORY (an alias value of LAST; unused at runtime). -/
def TreeElements_DIRECTORY : String := "└──"

/-- TreeElements.LAST, the connector printed for a last child. -/
def TreeElements_LAST : String := "└──"

/-- The display name computed inside GraphTree.draw: directories get a
trailing slash, files and links print their bare name. -/
def Item.display_name : Item → String
  | .directory n _ => n ++ "/"
  | it => it.name

mutual
/-- GraphTree.draw called on a non-root item: a non-directory or a
directory with no children prints nothing and returns at once. The first
component is the item as it stands when the call returns (the code assigns
to no field, so the tree comes back as it went in). -/
def drawItem : Item → String → Item × List String
  | .directory n cs, pre =>
    if cs.isEmpty then (Item.directory n cs, [])
    else (Item.directory n (drawChildren cs pre).1, (drawChildren cs pre).2)
  | it, _ => (it, [])
termination_by it _ => (sizeOf it, 1)

/-- The `for i, child in enumerate(children)` loop of GraphTree.draw. The
preceding `child is not None` filter is the identity here: children lists
hold items only, and traverse_tree appends no None (process_item's None
results are dropped before appending). `is_last_child` is "no sibling
follows"; the connector is
TreeElements.LAST for the last child and TreeElements.FILE otherwise; the
child's line carries prefix, connector, display name and, for a link, the
arrow and raw target; a directory child recurses with the prefix extended
by four spaces (last child) or a bar and three spaces. -/
def drawChildren : List Item → String → List Item × List String
  | [], _ => ([], [])
  | child :: rest, pre =>
    ((if child.is_directory then
        (drawItem child (pre ++ (if rest.isEmpty then "    " else "│   "))).1
      else child) :: (drawChildren rest pre).1,
     (pre ++ (if rest.isEmpty then TreeElements_LAST else TreeElements_FILE) ++ " "
        ++ child.display_name
        ++ (if child.is_link then " " ++ TreeElements_LINK ++ " " ++ child.target else ""))
       :: ((if child.is_directory then
              (drawItem child (pre ++ (if rest.isEmpty then "    " else "│   "))).2
            else [])
           ++ (drawChildren rest pre).2))
termination_by cs _ => (sizeOf cs, 0)
end

/-- GraphTree(root).draw(): the root line `name/` is printed first, then
the children pass runs on the root item. -/
def GraphTree_draw (root : Item) : Item × List String :=
  ((drawItem root "").1, (root.name ++ "/") :: (drawItem root "").2)

mutual
/-- All nodes of an item tree, the item itself included. -/
def itemNodes : Item → List Item
  | .file n => [Item.file n]
  | .link n tg => [Item.link n tg]
  | .directory n cs => Item.directory n cs :: forestNodes cs
termination_by it => (sizeOf it, 1)

/-- All nodes of a forest of items. -/
def forestNodes : List Item → List Item
  | [] => []
  | c :: cs => itemNodes c ++ forestNodes cs
termination_by cs => (sizeOf cs, 0)
end

/- ### Tree.__init__ / validate_root -/

/-- Split a character list on `/` into path components. -/
def splitSlash : List Char → List (List Char)
  | [] => [[]]
  | '/' :: rest => [] :: splitSlash rest
  | c :: rest =>
    match splitSlash rest with
    | [] => [[c]]
    | g :: gs => (c :: g) :: gs

/-- Python `Path(s).resolve().name`: the final nonempty component of the path.
Python's resolve is non-strict (it does not check that the path exists and
does not raise for ordinary paths), and resolving against the working
directory leaves the final component unchanged; `.` and `..` components
are not modelled, no claim uses them. -/
def pathName (s : String) : String :=
  ((((splitSlash s.toList).map (fun g => String.mk g)).filter
      (fun c => c ≠ "")).getLast?).getD ""

/-- The root argument of Tree.__init__: either a string path or an already
constructed Item (main always passes a Directory object). -/
inductive RootArg where
  | str (s : String)
  | item (it : Item)

/-- Constructor `Directory(s)` applied to a string path: Item.__init__ resolves the path —
which raises for no ordinary path, existing or not — and the new Directory
starts with empty children. -/
def Directory_ofString (s : String) : Item :=
  Item.directory (pathName s) []

/-- Method `Tree.validate_root`: a string root is wrapped in `Directory(...)`
(whose construction cannot fail for an ordinary path), after which
`is_directory()` is checked — a test of the Python class of the object
only; the filesystem is never consulted. -/
def validate_root : RootArg → Except String Item
  | .str s => Except.ok (Directory_ofString s)
  | .item it =>
    if it.is_directory then Except.ok it
    else Except.error "Root must be a directory"

/- ### Basic facts about the walker -/

/-- process_item with the dependent if replaced by a plain if (its proof is
unused), convenient for case analysis. -/
theorem process_item_eq (t : TreeCfg) (e : FSEntry) (d : Nat) :
    process_item t e d =
      if skip_condition t e then none
      else if e.is_dir then
        some (Item.directory e.name
          (if break_condition t d then traverse_tree t e.entries (d + 1) else []))
      else if e.is_symlink then some (Item.link e.name e.target)
      else some (Item.file e.name) := by
  simp only [process_item, dite_eq_ite]

/-- The traversal loop is filterMap of process_item. -/
theorem traverse_go_eq (t : TreeCfg) (l : List FSEntry) (d : Nat) :
    traverse_go t l d = l.filterMap (fun e => process_item t e d) := by
  induction l with
  | nil => simp [traverse_go]
  | cons e rest ih =>
    rw [traverse_go, List.filterMap_cons]
    cases h : process_item t e d <;> simp [h, ih]

/-- traverse_tree is filterMap of process_item over the sorted entries. -/
theorem traverse_tree_eq (t : TreeCfg) (es : List FSEntry) (d : Nat) :
    traverse_tree t es d = (sortEntries es).filterMap (fun e => process_item t e d) := by
  rw [traverse_tree, traverse_go_eq]

theorem mem_sortEntries {e : FSEntry} {l : List FSEntry} :
    e ∈ sortEntries l ↔ e ∈ l :=
  List.mem_insertionSort _

/-- A produced item keeps the entry's base name. -/
theorem process_item_name {t : TreeCfg} {e : FSEntry} {d : Nat} {it : Item}
    (h : process_item t e d = some it) : it.name = e.name := by
  rw [process_item_eq] at h
  by_cases hs : skip_condition t e
  · simp [hs] at h
  · simp only [hs, if_false, Bool.false_eq_true] at h
    split at h <;> [skip; split at h] <;>
      simp_all [Item.name] <;> subst h <;> simp [Item.name]

/-- process_item yields nothing exactly for skipped entries. -/
theorem process_item_eq_none {t : TreeCfg} {e : FSEntry} {d : Nat} :
    process_item t e d = none ↔ skip_condition t e = true := by
  rw [process_item_eq]
  by_cases hs : skip_condition t e
  · simp [hs]
  · simp only [hs, Bool.false_eq_true, if_false, iff_false]
    split
    · simp
    · split <;> simp

/- ### Spec-side descriptions of the traversal result -/

/-- The entries surviving skip_condition, in the traversal (sorted) order. -/
def surviving (t : TreeCfg) (es : List FSEntry) : List FSEntry :=
  (sortEntries es).filter (fun e => !skip_condition t e)

/-- The item a single entry becomes when directories are not expanded:
directories (and symlinks to directories) keep empty children. -/
def shallowItem : FSEntry → Item
  | .file n => Item.file n
  | .link n tg => Item.link n tg
  | .dirlink n _ _ => Item.directory n []
  | .dir n _ => Item.directory n []

/-- When break_condition already fails at the current depth, the traversal
lists the surviving entries shallowly: subdirectories get empty children
and nothing below them is consulted. -/
theorem traverse_tree_no_expand (t : TreeCfg) (es : List FSEntry) (d : Nat)
    (h : break_condition t d = false) :
    traverse_tree t es d = (surviving t es).map shallowItem := by
  rw [traverse_tree_eq, surviving]
  induction sortEntries es with
  | nil => simp
  | cons e rest ih =>
    rw [List.filterMap_cons, List.filter_cons]
    by_cases hs : skip_condition t e
    · simp only [process_item_eq_none.2 hs]
      simp [hs, ih]
    · have hpe : process_item t e d = some (shallowItem e) := by
        cases e <;>
          simp [process_item_eq, hs, h, shallowItem, FSEntry.is_dir,
            FSEntry.is_symlink, FSEntry.name, FSEntry.target]
      simp only [hpe]
      simp [hs, ih]

/-- The item an entry becomes at the last expanded level: a subdirectory
lists its own surviving entries shallowly. -/
def depth1Item (t : TreeCfg) : FSEntry → Item
  | .file n => Item.file n
  | .link n tg => Item.link n tg
  | .dirlink n _ sub => Item.directory n ((surviving t sub).map shallowItem)
  | .dir n sub => Item.directory n ((surviving t sub).map shallowItem)

/-- With max_depth = 1 the walker expands the root's direct subdirectories
one level: their entries are listed, and directories among those entries
get empty children. -/
theorem traverse_tree_depth1 (ex : List String) (es : List FSEntry) :
    traverse_tree ⟨some 1, ex⟩ es 0
      = (surviving ⟨some 1, ex⟩ es).map (depth1Item ⟨some 1, ex⟩) := by
  rw [traverse_tree_eq, surviving]
  induction sortEntries es with
  | nil => simp
  | cons e rest ih =>
    rw [List.filterMap_cons, List.filter_cons]
    by_cases hs : skip_condition ⟨some 1, ex⟩ e
    · simp only [process_item_eq_none.2 hs]
      simp [hs, ih]
    · have hpe : process_item ⟨some 1, ex⟩ e 0 = some (depth1Item ⟨some 1, ex⟩ e) := by
        cases e <;>
          simp [process_item_eq, hs, depth1Item, FSEntry.is_dir, FSEntry.is_symlink,
            FSEntry.name, FSEntry.target, FSEntry.entries, break_condition,
            traverse_tree_no_expand ⟨some 1, ex⟩ _ 1 (by simp [break_condition])]
      simp only [hpe]
      simp [hs, ih]

/- ### Ordering facts (claim C6 support) -/

instance instTotalEntryLe : IsTotal FSEntry (fun a b => a.name ≤ b.name) :=
  ⟨fun a b => le_total a.name b.name⟩

instance instTransEntryLe : IsTrans FSEntry (fun a b => a.name ≤ b.name) :=
  ⟨fun _ _ _ h1 h2 => le_trans h1 h2⟩

theorem sortEntries_sorted (l : List FSEntry) :
    List.Sorted (fun a b => a.name ≤ b.name) (sortEntries l) :=
  List.sorted_insertionSort _ l

theorem pairwise_filterMap_of {α β} {R : α → α → Prop} {S : β → β → Prop}
    {f : α → Option β} {l : List α} (h : List.Pairwise R l)
    (hf : ∀ a b x y, R a b → f a = some x → f b = some y → S x y) :
    List.Pairwise S (l.filterMap f) := by
  induction l with
  | nil => simp
  | cons a l2 ih =>
    rw [List.pairwise_cons] at h
    rw [List.filterMap_cons]
    cases hfa : f a with
    | none => exact ih h.2
    | some x =>
      refine List.Pairwise.cons (fun y hy => ?_) (ih h.2)
      obtain ⟨b, hb, hfb⟩ := List.mem_filterMap.1 hy
      exact hf a b x y (h.1 b hb) hfa hfb

/-- The children a traversal appends are in ascending code-point order of
their names. -/
theorem traverse_tree_sorted (t : TreeCfg) (es : List FSEntry) (d : Nat) :
    List.Pairwise (fun a b : Item => a.name ≤ b.name) (traverse_tree t es d) := by
  rw [traverse_tree_eq]
  refine pairwise_filterMap_of (sortEntries_sorted es) ?_
  intro a b x y hab hfa hfb
  rw [process_item_name hfa, process_item_name hfb]
  exact hab

/- ### Exclusion facts (claim C5 support) -/

theorem orderedInsert_eq_cons {α} (r : α → α → Prop) [DecidableRel r] (a : α)
    (l : List α) (h : ∀ b ∈ l, r a b) : List.orderedInsert r a l = a :: l := by
  cases l with
  | nil => rfl
  | cons b l2 => simp [List.orderedInsert, h b (by simp)]

theorem filter_orderedInsert {α} (r : α → α → Prop) [DecidableRel r] [IsTrans α r]
    (p : α → Bool) (a : α) (l : List α) (hl : List.Sorted r l) :
    (List.orderedInsert r a l).filter p =
      if p a then List.orderedInsert r a (l.filter p) else l.filter p := by
  induction l with
  | nil => simp [List.orderedInsert, List.filter_cons]
  | cons x xs ih =>
    rw [List.sorted_cons] at hl
    by_cases hra : r a x
    · rw [List.orderedInsert, if_pos hra]
      have hall : ∀ b ∈ (x :: xs).filter p, r a b := by
        intro b hb
        have hb2 := List.mem_of_mem_filter hb
        rcases List.mem_cons.1 hb2 with hbe | hbx
        · exact hbe ▸ hra
        · exact Trans.trans hra (hl.1 b hbx)
      rw [orderedInsert_eq_cons r a _ hall]
      by_cases hpa : p a <;> simp [List.filter_cons, hpa]
    · have ihx := ih hl.2
      by_cases hpx : p x <;> by_cases hpa : p a <;>
        simp [List.orderedInsert, List.filter_cons, hra, hpx, hpa, ihx]

theorem filter_insertionSort {α} (r : α → α → Prop) [DecidableRel r]
    [IsTotal α r] [IsTrans α r] (p : α → Bool) (l : List α) :
    (List.insertionSort r l).filter p = List.insertionSort r (l.filter p) := by
  induction l with
  | nil => rfl
  | cons a l2 ih =>
    rw [List.insertionSort, List.filter_cons,
      filter_orderedInsert r p a _ (List.sorted_insertionSort r l2), ih]
    by_cases hpa : p a <;> simp [hpa, List.insertionSort]

theorem filterMap_eq_filterMap_filter {α β} (f : α → Option β) (p : α → Bool)
    (l : List α) (h : ∀ x ∈ l, p x = false → f x = none) :
    l.filterMap f = (l.filter p).filterMap f := by
  induction l with
  | nil => rfl
  | cons a l2 ih =>
    have ih2 := ih (fun x hx hpx => h x (List.mem_cons_of_mem a hx) hpx)
    rw [List.filterMap_cons, List.filter_cons]
    by_cases hpa : p a
    · rw [if_pos hpa, List.filterMap_cons, ih2]
    · rw [h a (List.mem_cons_self a l2) (by simpa using hpa), if_neg hpa, ih2]

/-- Excluded entries, together with everything below them, contribute
nothing: the traversal of a directory equals the traversal of the same
directory with the excluded entries removed beforehand. -/
theorem traverse_tree_filter_eq (t : TreeCfg) (es : List FSEntry) (d : Nat) :
    traverse_tree t es d
      = traverse_tree t (es.filter (fun e => !skip_condition t e)) d := by
  rw [traverse_tree_eq, traverse_tree_eq, sortEntries, sortEntries,
    ← filter_insertionSort _ (fun e => !skip_condition t e)]
  apply filterMap_eq_filterMap_filter
  intro x _ hpx
  exact process_item_eq_none.2 (by simpa using hpx)

theorem mem_forestNodes {nd : Item} {cs : List Item} :
    nd ∈ forestNodes cs ↔ ∃ it ∈ cs, nd ∈ itemNodes it := by
  induction cs with
  | nil => simp [forestNodes]
  | cons c cs2 ih => simp [forestNodes, ih]

theorem self_mem_itemNodes (it : Item) : it ∈ itemNodes it := by
  cases it <;> simp [itemNodes]

/-- Every node anywhere in the built forest carries a name that matches no
exclusion pattern: excluded entries are absent and excluded directories are
never entered, so none of their descendants can surface either. -/
theorem traverse_nodes_not_skipped (t : TreeCfg) (es : List FSEntry) (d : Nat) :
    ∀ nd ∈ forestNodes (traverse_tree t es d),
      t.exclude.any (fun pat => fnmatch nd.name pat) = false := by
  intro nd hnd
  rw [traverse_tree_eq] at hnd
  obtain ⟨it, hit, hnd2⟩ := mem_forestNodes.1 hnd
  obtain ⟨e, he, hpe⟩ := List.mem_filterMap.1 hit
  have hes : e ∈ es := mem_sortEntries.1 he
  have hskip : skip_condition t e = false := by
    cases hsk : skip_condition t e
    · rfl
    · rw [process_item_eq, hsk] at hpe
      simp at hpe
  rw [process_item_eq, hskip] at hpe
  simp only [Bool.false_eq_true, if_false] at hpe
  by_cases hd : e.is_dir
  · rw [if_pos hd] at hpe
    obtain rfl := (Option.some_inj.1 hpe).symm
    simp only [itemNodes, List.mem_cons] at hnd2
    rcases hnd2 with rfl | hsub
    · simpa [skip_condition, Item.name] using hskip
    · by_cases hb : break_condition t d
      · rw [if_pos hb] at hsub
        have h1 : sizeOf e < sizeOf es := List.sizeOf_lt_of_mem hes
        have h2 : sizeOf e.entries < sizeOf e := by
          cases e <;> simp_all [FSEntry.is_dir, FSEntry.entries] <;> omega
        exact traverse_nodes_not_skipped t e.entries (d + 1) nd hsub
      · rw [if_neg hb] at hsub
        simp [forestNodes] at hsub
  · rw [if_neg hd] at hpe
    by_cases hl : e.is_symlink
    · rw [if_pos hl] at hpe
      obtain rfl := (Option.some_inj.1 hpe).symm
      simp only [itemNodes, List.mem_singleton] at hnd2
      subst hnd2
      simpa [skip_condition, Item.name] using hskip
    · rw [if_neg hl] at hpe
      obtain rfl := (Option.some_inj.1 hpe).symm
      simp only [itemNodes, List.mem_singleton] at hnd2
      subst hnd2
      simpa [skip_condition, Item.name] using hskip
termination_by sizeOf es
decreasing_by omega

/- ### Renderer facts -/

mutual
/-- The draw pass hands every item back exactly as it received it. -/
theorem drawItem_fst (it : Item) (pre : String) : (drawItem it pre).1 = it := by
  cases it with
  | file n => simp [drawItem]
  | link n tg => simp [drawItem]
  | directory n cs =>
    by_cases hcs : cs.isEmpty
    · simp [drawItem, hcs]
    · simp [drawItem, hcs, drawChildren_fst cs pre]
termination_by (sizeOf it, 1)

/-- The children loop of the draw pass hands the children back unchanged. -/
theorem drawChildren_fst (cs : List Item) (pre : String) :
    (drawChildren cs pre).1 = cs := by
  cases cs with
  | nil => simp [drawChildren]
  | cons c rest =>
    have h1 := drawChildren_fst rest pre
    have h2 := drawItem_fst c (pre ++ (if rest.isEmpty then "    " else "│   "))
    simp [drawChildren, h1, h2]
termination_by (sizeOf cs, 0)
end

/-- The text §4.2 appends after the display name: the arrow and the raw
target for a link, nothing for anything else. -/
def linkSuffix : Item → String
  | .link _ tg => " -> " ++ tg
  | _ => ""

/-- Section 4.2 of the spec as a recursive renderer, with the connector rule
amended to what the code prints: `└──` exactly for the last sibling and
`├──` otherwise. Each child line is prefix, connector, one space, the
display name, and for a link the arrow with the raw target; a directory
child recurses with the prefix extended by four spaces after a last child
and by a bar with three spaces otherwise. -/
def specRender : List Item → String → List String
  | [], _ => []
  | Item.file n :: rest, pre =>
    (pre ++ (if rest.isEmpty then "└──" else "├──") ++ " " ++ n)
      :: specRender rest pre
  | Item.link n tg :: rest, pre =>
    (pre ++ (if rest.isEmpty then "└──" else "├──") ++ " " ++ n ++ (" -> " ++ tg))
      :: specRender rest pre
  | Item.directory n cs :: rest, pre =>
    (pre ++ (if rest.isEmpty then "└──" else "├──") ++ " " ++ (n ++ "/"))
      :: (specRender cs (pre ++ (if rest.isEmpty then "    " else "│   "))
          ++ specRender rest pre)
termination_by cs _ => sizeOf cs

mutual
/-- The lines a drawn item prints are exactly the spec renderer's lines for
its children. -/
theorem drawItem_snd_eq (it : Item) (pre : String) :
    (drawItem it pre).2 = specRender it.children pre := by
  cases it with
  | file n => simp [drawItem, Item.children, specRender]
  | link n tg => simp [drawItem, Item.children, specRender]
  | directory n cs =>
    cases cs with
    | nil => simp [drawItem, Item.children, specRender]
    | cons c rest =>
      have h := drawChildren_snd_eq (c :: rest) pre
      simp [drawItem, Item.children, h]
termination_by (sizeOf it, 1)

/-- The children loop prints exactly the spec renderer's lines. -/
theorem drawChildren_snd_eq (cs : List Item) (pre : String) :
    (drawChildren cs pre).2 = specRender cs pre := by
  cases cs with
  | nil => simp [drawChildren, specRender]
  | cons c rest =>
    have hrest := drawChildren_snd_eq rest pre
    cases c with
    | file n =>
      simp [drawChildren, specRender, Item.is_directory, Item.is_link,
        Item.display_name, Item.name, hrest, TreeElements_LAST, TreeElements_FILE]
    | link n tg =>
      simp [drawChildren, specRender, Item.is_directory, Item.is_link,
        Item.display_name, Item.name, Item.target, hrest,
        TreeElements_LAST, TreeElements_FILE, TreeElements_LINK]
    | directory n2 cs2 =>
      have hsub := drawItem_snd_eq (Item.directory n2 cs2)
        (pre ++ (if rest.isEmpty then "    " else "│   "))
      simp [drawChildren, specRender, Item.is_directory, Item.is_link,
        Item.display_name, Item.name, hrest, hsub, Item.children,
        TreeElements_LAST, TreeElements_FILE]
termination_by (sizeOf cs, 0)
end

theorem forestNodes_cons (c : Item) (cs : List Item) :
    forestNodes (c :: cs) = itemNodes c ++ forestNodes cs := by
  rw [forestNodes]

theorem itemNodes_directory (n : String) (cs : List Item) :
    itemNodes (Item.directory n cs) = Item.directory n cs :: forestNodes cs := by
  rw [itemNodes]

/-- The shape §4.2 prescribes for one child line, connector amended:
prefix, connector by last-ness, one space, display name, then for a link
the arrow and the raw target, for anything else nothing more. -/
def specChildLine (q : String) (last : Bool) (it : Item) : String :=
  q ++ (if last then "└──" else "├──") ++ " " ++ it.display_name ++ linkSuffix it

/-- Every line the spec renderer emits is a child line of some node of the
forest. -/
theorem specRender_line_shape (cs : List Item) (pre : String) :
    ∀ l ∈ specRender cs pre, ∃ q last it,
      it ∈ forestNodes cs ∧ l = specChildLine q last it := by
  intro l hl
  cases cs with
  | nil => simp [specRender] at hl
  | cons c rest =>
    cases c with
    | file n =>
      rw [specRender] at hl
      rcases List.mem_cons.1 hl with rfl | hrest
      · refine ⟨pre, rest.isEmpty, Item.file n, ?_, ?_⟩
        · rw [forestNodes_cons]
          exact List.mem_append.2 (Or.inl (self_mem_itemNodes _))
        · simp [specChildLine, Item.display_name, linkSuffix, Item.name]
      · obtain ⟨q, last, it, hit, hle⟩ := specRender_line_shape rest pre l hrest
        refine ⟨q, last, it, ?_, hle⟩
        rw [forestNodes_cons]
        exact List.mem_append.2 (Or.inr hit)
    | link n tg =>
      rw [specRender] at hl
      rcases List.mem_cons.1 hl with rfl | hrest
      · refine ⟨pre, rest.isEmpty, Item.link n tg, ?_, ?_⟩
        · rw [forestNodes_cons]
          exact List.mem_append.2 (Or.inl (self_mem_itemNodes _))
        · simp [specChildLine, Item.display_name, linkSuffix, Item.name,
            String.append_assoc]
      · obtain ⟨q, last, it, hit, hle⟩ := specRender_line_shape rest pre l hrest
        refine ⟨q, last, it, ?_, hle⟩
        rw [forestNodes_cons]
        exact List.mem_append.2 (Or.inr hit)
    | directory n2 cs2 =>
      rw [specRender] at hl
      rcases List.mem_cons.1 hl with rfl | hl2
      · refine ⟨pre, rest.isEmpty, Item.directory n2 cs2, ?_, ?_⟩
        · rw [forestNodes_cons]
          exact List.mem_append.2 (Or.inl (self_mem_itemNodes _))
        · simp [specChildLine, Item.display_name, linkSuffix]
      · rcases List.mem_append.1 hl2 with hsub | hrest
        · obtain ⟨q, last, it, hit, hle⟩ := specRender_line_shape cs2 _ l hsub
          refine ⟨q, last, it, ?_, hle⟩
          rw [forestNodes_cons, itemNodes_directory]
          exact List.mem_append.2 (Or.inl (List.mem_cons_of_mem _ hit))
        · obtain ⟨q, last, it, hit, hle⟩ := specRender_line_shape rest pre l hrest
          refine ⟨q, last, it, ?_, hle⟩
          rw [forestNodes_cons]
          exact List.mem_append.2 (Or.inr hit)
termination_by sizeOf cs

/- ### Glob degradation facts (claim C9 support) -/

theorem scanClose_none {l : List Char} (h : ∀ c ∈ l, c ≠ ']') :
    scanClose l = none := by
  induction l with
  | nil => rfl
  | cons c rest ih =>
    rw [scanClose, if_neg (h c (by simp))]
    rw [ih (fun x hx => h x (by simp [hx]))]
    rfl

theorem splitBracket_none {l : List Char} (h : ∀ c ∈ l, c ≠ ']') :
    splitBracket l = none := by
  cases l with
  | nil => rfl
  | cons c l1 =>
    by_cases hc : c = '!'
    · subst hc
      cases l1 with
      | nil => rfl
      | cons c2 l2 =>
        have hc2 : c2 ≠ ']' := h c2 (by simp)
        have hs : scanClose (c2 :: l2) = none :=
          scanClose_none (fun x hx => h x (by simp [List.mem_cons.1 hx]))
        simp [splitBracket, hc2, hs]
    · have hcb : c ≠ ']' := h c (by simp)
      have hs : scanClose (c :: l1) = none :=
        scanClose_none (fun x hx => h x hx)
      simp [splitBracket, hc, hcb, hs]

/-- A pattern with no glob metacharacters matches exactly itself. -/
theorem globMatch_literal {ps : List Char}
    (h : ∀ c ∈ ps, c ≠ '*' ∧ c ≠ '?' ∧ c ≠ '[') :
    ∀ s, globMatch ps s = (s == ps) := by
  induction ps with
  | nil => intro s; cases s <;> simp [globMatch]
  | cons p ps2 ih =>
    intro s
    have hp := h p (by simp)
    have ih2 := ih (fun x hx => h x (by simp [hx]))
    cases s with
    | nil => rw [globMatch.eq_8 p ps2 hp.1 hp.2.1 hp.2.2]; simp
    | cons c s2 =>
      rw [globMatch.eq_9 p ps2 c s2 hp.1 hp.2.1 hp.2.2]
      simp [ih2, List.cons_beq_cons]

/- ### The claims -/

/-- C1 (counterexample): for the symlink entry `s` whose target `/d` is a
directory containing the file `x`, the walker builds a Directory node with
children — not a childless Link node — because `is_dir()` is tested before
`is_symlink()` and `is_dir()` follows symlinks: the symlink's target IS
traversed. -/
theorem C1_counterexample :
    traverse_tree ⟨none, []⟩ [FSEntry.dirlink "s" "/d" [FSEntry.file "x"]] 0
        = [Item.directory "s" [Item.file "x"]]
      ∧ Item.directory "s" [Item.file "x"] ≠ Item.link "s" "/d"
      ∧ (Item.directory "s" [Item.file "x"]).children ≠ [] := by
  refine ⟨?_, by simp, by simp [Item.children]⟩
  simp +decide [traverse_tree, traverse_go, process_item, sortEntries, skip_condition,
    break_condition, List.insertionSort, List.orderedInsert, FSEntry.is_dir,
    FSEntry.is_symlink, FSEntry.name, FSEntry.target, FSEntry.entries]

/-- C1 (amended): every symlink entry that the filesystem does not report
as a directory becomes a Link node carrying the raw target, and a Link node
owns no children; a symlink to a directory is instead classified as a
Directory and its target traversed (see the counterexample). -/
theorem C1_amended_link_leaf :
    ∀ (t : TreeCfg) (es : List FSEntry) (d : Nat) (n tg : String),
      FSEntry.link n tg ∈ es → skip_condition t (FSEntry.link n tg) = false →
      Item.link n tg ∈ traverse_tree t es d ∧ (Item.link n tg).children = [] := by
  intro t es d n tg hmem hskip
  refine ⟨?_, rfl⟩
  rw [traverse_tree_eq]
  refine List.mem_filterMap.2 ⟨FSEntry.link n tg, mem_sortEntries.2 hmem, ?_⟩
  rw [process_item_eq]
  simp [hskip, FSEntry.is_dir, FSEntry.is_symlink, FSEntry.name, FSEntry.target]

/-- Witness for C1 (amended) at a concrete one-entry filesystem. -/
theorem C1_amended_link_leaf_witness :
    (FSEntry.link "a" "t" ∈ [FSEntry.link "a" "t"])
      ∧ skip_condition ⟨none, []⟩ (FSEntry.link "a" "t") = false
      ∧ (Item.link "a" "t" ∈ traverse_tree ⟨none, []⟩ [FSEntry.link "a" "t"] 0
          ∧ (Item.link "a" "t").children = []) :=
  ⟨by simp, by simp [skip_condition],
    C1_amended_link_leaf ⟨none, []⟩ [FSEntry.link "a" "t"] 0 "a" "t"
      (by simp) (by simp [skip_condition])⟩

/-- C2 (counterexample): a directory with the two files `a`, `b` renders
with the branching connector `├──` on the non-last child line, so `├──`
does appear in the output and not every child line uses `└──`. -/
theorem C2_counterexample :
    (GraphTree_draw (Item.directory "r" [Item.file "a", Item.file "b"])).2
        = ["r/", "├── a", "└── b"]
      ∧ "├── a" ∈ (GraphTree_draw (Item.directory "r" [Item.file "a", Item.file "b"])).2 := by
  constructor
  · simp [GraphTree_draw, drawItem, drawChildren, Item.is_directory, Item.is_link,
      Item.display_name, Item.name, TreeElements_LAST, TreeElements_FILE]
  · simp [GraphTree_draw, drawItem, drawChildren, Item.is_directory, Item.is_link,
      Item.display_name, Item.name, TreeElements_LAST, TreeElements_FILE]

/-- C2 (amended): every child line uses `└──` exactly when the child is the
last of its siblings and `├──` otherwise: the whole rendered output equals
the §4.2 renderer with that connector rule. -/
theorem C2_amended_connectors :
    ∀ root : Item,
      (GraphTree_draw root).2 = (root.name ++ "/") :: specRender root.children "" := by
  intro root
  simp [GraphTree_draw, drawItem_snd_eq]

/-- C3 (code bug): validate_root accepts every string root: the
Directory(...) wrapper never fails because Path.resolve is non-strict, and
the subsequent is_directory() check tests only the Python class of the
freshly built Directory object — never the filesystem. A nonexistent path
such as `/no/such/path` is accepted without any invalid-root error. -/
theorem C3_validate_root_accepts_any_string :
    validate_root (RootArg.str "/no/such/path")
        = Except.ok (Item.directory "path" [])
      ∧ ∀ s : String, validate_root (RootArg.str s)
        = Except.ok (Directory_ofString s) := by
  constructor
  · have h : pathName "/no/such/path" = "path" := by decide
    simp [validate_root, Directory_ofString, h]
  · intro s
    rfl

/-- C4 (counterexample): with maxDepth = 1 the direct subdirectory `sub` of
the root IS expanded — its child `x.txt` is listed — so it is not appended
with empty children. -/
theorem C4_counterexample :
    traverse_tree ⟨some 1, []⟩
        [FSEntry.dir "sub" [FSEntry.file "x.txt"], FSEntry.file "y.txt"] 0
        = [Item.directory "sub" [Item.file "x.txt"], Item.file "y.txt"]
      ∧ (Item.directory "sub" [Item.file "x.txt"]).children ≠ [] := by
  refine ⟨?_, by simp [Item.children]⟩
  simp +decide [traverse_tree, traverse_go, process_item, sortEntries, skip_condition,
    break_condition, List.insertionSort, List.orderedInsert, FSEntry.is_dir,
    FSEntry.is_symlink, FSEntry.name, FSEntry.target, FSEntry.entries]

/-- C4 (amended): a call with maxDepth = 1 lists the root's direct entries
AND expands each direct subdirectory one further level: the subdirectories
found at depth 1 are the ones appended with empty children. -/
theorem C4_amended_depth_one :
    ∀ (ex : List String) (es : List FSEntry),
      traverse_tree ⟨some 1, ex⟩ es 0
        = (surviving ⟨some 1, ex⟩ es).map (depth1Item ⟨some 1, ex⟩) :=
  traverse_tree_depth1

/-- C5: an excluded entry never reaches the children sequence and, when it
is a directory, nothing below it is ever consulted (the traversal equals
the traversal of the pre-filtered listing); moreover every node anywhere in
the built forest has a base name that matches no exclusion pattern —
matching is performed on base names only, which skip_condition's signature
shows. -/
theorem C5_exclusion_invariant :
    (∀ (t : TreeCfg) (es : List FSEntry) (d : Nat),
        traverse_tree t es d
          = traverse_tree t (es.filter (fun e => !skip_condition t e)) d)
      ∧ (∀ (t : TreeCfg) (es : List FSEntry) (d : Nat),
          ∀ nd ∈ forestNodes (traverse_tree t es d),
            t.exclude.any (fun pat => fnmatch nd.name pat) = false) :=
  ⟨traverse_tree_filter_eq, traverse_nodes_not_skipped⟩

/-- Witness for C5 at a concrete filesystem with exclusion pattern `x`. -/
theorem C5_exclusion_invariant_witness :
    (Item.file "y" ∈ forestNodes
        (traverse_tree ⟨none, ["x"]⟩ [FSEntry.file "x", FSEntry.file "y"] 0))
      ∧ (TreeCfg.mk none ["x"]).exclude.any
          (fun pat => fnmatch (Item.file "y").name pat) = false :=
  ⟨by
    simp +decide [traverse_tree, traverse_go, process_item, sortEntries, skip_condition,
      break_condition, List.insertionSort, List.orderedInsert, FSEntry.is_dir,
      FSEntry.is_symlink, FSEntry.name, fnmatch, globMatch, forestNodes, itemNodes],
   C5_exclusion_invariant.2 ⟨none, ["x"]⟩ [FSEntry.file "x", FSEntry.file "y"] 0
    (Item.file "y")
    (by
      simp +decide [traverse_tree, traverse_go, process_item, sortEntries, skip_condition,
        break_condition, List.insertionSort, List.orderedInsert, FSEntry.is_dir,
        FSEntry.is_symlink, FSEntry.name, fnmatch, globMatch, forestNodes, itemNodes])⟩

/-- C6: the children of every expanded directory come in ascending
code-point order of their names, and the concrete listing `b`, `A`, `a1`
is built in the order `A`, `a1`, `b`. -/
theorem C6_sorted_children :
    (∀ (t : TreeCfg) (es : List FSEntry) (d : Nat),
        List.Pairwise (fun a b : Item => a.name ≤ b.name) (traverse_tree t es d))
      ∧ traverse_tree ⟨none, []⟩
          [FSEntry.file "b", FSEntry.file "A", FSEntry.file "a1"] 0
          = [Item.file "A", Item.file "a1", Item.file "b"] :=
  ⟨traverse_tree_sorted, by
    simp +decide [traverse_tree, traverse_go, process_item, sortEntries, skip_condition,
      break_condition, List.insertionSort, List.orderedInsert, FSEntry.is_dir,
      FSEntry.is_symlink, FSEntry.name]⟩

/-- C7: the line the children pass emits for a child is the head of the
output of the pass run over the child and its later siblings. For a Link
child that line ends with exactly ` -> <target>` carrying that child's own
raw target; for any non-Link child the line ends immediately after the
display name. Moreover process_item stores the raw read-link string in the
Link it builds, so the rendered target is the unresolved, unvalidated
string from the filesystem. -/
theorem C7_line_format :
    (∀ (n tg : String) (rest : List Item) (pre : String),
        ((drawChildren (Item.link n tg :: rest) pre).2).head?
          = some (pre ++ (if rest.isEmpty then "└──" else "├──") ++ " " ++ n
              ++ (" -> " ++ tg)))
      ∧ (∀ (c : Item) (rest : List Item) (pre : String), c.is_link = false →
          ((drawChildren (c :: rest) pre).2).head?
            = some (pre ++ (if rest.isEmpty then "└──" else "├──") ++ " "
                ++ c.display_name))
      ∧ (∀ (t : TreeCfg) (d : Nat) (n tg : String),
          process_item t (FSEntry.link n tg) d = none
            ∨ process_item t (FSEntry.link n tg) d = some (Item.link n tg)) := by
  refine ⟨?_, ?_, ?_⟩
  · intro n tg rest pre
    rw [drawChildren_snd_eq, specRender]
    rfl
  · intro c rest pre hcl
    cases c with
    | file n =>
      rw [drawChildren_snd_eq, specRender]
      simp [Item.display_name, Item.name]
    | link n tg => simp [Item.is_link] at hcl
    | directory n cs =>
      rw [drawChildren_snd_eq, specRender]
      simp [Item.display_name]
  · intro t d n tg
    by_cases hs : skip_condition t (FSEntry.link n tg)
    · exact Or.inl (process_item_eq_none.2 hs)
    · refine Or.inr ?_
      rw [process_item_eq]
      simp [hs, FSEntry.is_dir, FSEntry.is_symlink, FSEntry.name, FSEntry.target]

/-- Witness for C7: the non-Link conjunct discharged at a single file
child, whose line ends right after its display name. -/
theorem C7_line_format_witness :
    (Item.file "a").is_link = false
      ∧ ((drawChildren [Item.file "a"] "").2).head?
          = some ("" ++ (if ([] : List Item).isEmpty then "└──" else "├──") ++ " "
              ++ (Item.file "a").display_name) :=
  ⟨rfl, C7_line_format.2.1 (Item.file "a") [] "" rfl⟩

/-- C8: the draw pass returns the tree exactly as it received it (the code
assigns to no attribute), and drawing again the tree that the first pass
returns prints byte-identical lines. -/
theorem C8_draw_pure :
    ∀ root : Item,
      (GraphTree_draw root).1 = root
        ∧ (GraphTree_draw ((GraphTree_draw root).1)).2 = (GraphTree_draw root).2 := by
  intro root
  have h : (GraphTree_draw root).1 = root := by
    simp [GraphTree_draw, drawItem_fst]
  exact ⟨h, by rw [h]⟩

/-- C9: a malformed exclusion pattern — an opening `[` whose class never
closes — raises nothing (skip_condition is a total boolean test) and
degrades to literal matching: the pattern matches exactly its own text. -/
theorem C9_malformed_pattern_literal :
    ∀ (r s : List Char),
      (∀ c ∈ r, c ≠ '*' ∧ c ≠ '?' ∧ c ≠ '[' ∧ c ≠ ']') →
      skip_condition ⟨none, [String.mk ('[' :: r)]⟩ (FSEntry.file (String.mk s))
        = (s == '[' :: r) := by
  intro r s h
  rw [skip_condition]
  simp only [List.any_cons, List.any_nil, Bool.or_false]
  show globMatch ('[' :: r) s = (s == '[' :: r)
  have hsb : splitBracket r = none :=
    splitBracket_none (fun c hc => (h c hc).2.2.2)
  have hlit := globMatch_literal (fun c hc =>
    ⟨(h c hc).1, (h c hc).2.1, (h c hc).2.2.1⟩)
  cases s with
  | nil => rw [globMatch.eq_6]; simp [hsb]
  | cons c s2 => rw [globMatch.eq_7]; simp [hsb, hlit s2, List.cons_beq_cons]

/-- Witness for C9 at the malformed pattern `[abc`. -/
theorem C9_malformed_pattern_literal_witness :
    (∀ c ∈ ['a', 'b', 'c'], c ≠ '*' ∧ c ≠ '?' ∧ c ≠ '[' ∧ c ≠ ']')
      ∧ skip_condition ⟨none, [String.mk ('[' :: ['a', 'b', 'c'])]⟩
          (FSEntry.file (String.mk ['[', 'a', 'b', 'c']))
          = (['[', 'a', 'b', 'c'] == '[' :: ['a', 'b', 'c']) :=
  ⟨by decide, C9_malformed_pattern_literal ['a', 'b', 'c'] ['[', 'a', 'b', 'c'] (by decide)⟩

/-- C10: a call with maxDepth = 0 still lists the root's immediate
non-excluded entries, appending each of them, with every subdirectory among
them appended with empty children and nothing at any deeper level
consulted. -/
theorem C10_depth_zero_shallow :
    ∀ (ex : List String) (es : List FSEntry),
      traverse_tree ⟨some 0, ex⟩ es 0 = (surviving ⟨some 0, ex⟩ es).map shallowItem :=
  fun ex es =>
    traverse_tree_no_expand ⟨some 0, ex⟩ es 0 (by simp [break_condition])
